import Mathlib

/-!
Shallow embedding of manticore's constraint-management core
(`src/manticore/core/smtlib/constraints.py`).

Python reference semantics are rendered as values: a store is its own
node (`top`) plus the chain of ancestor nodes (`ancestors`, nearest
parent first), mirroring the `_parent` pointer chain.  Python object
identity of variables is modelled arena-style (as the spec's design
notes suggest): every freshly constructed variable object receives the
next tag from the allocation counter `heap` carried by the store, and
"is the same object" becomes equality of records including the tag.
Python `dict`s become association lists looked up by first match;
insertions append (every insertion point in the source first checks
the key is absent, so this matches `dict` semantics).  Python `set`s
of constraints become duplicate-free lists iterated in list order;
CPython set iteration order is arbitrary and nothing proved below
depends on a particular order beyond what the source guarantees.

The expression subsystem (`expression.py`) and the traversal helpers
(`visitors.py`) are collaborators that are not part of the sources;
each of their definitions below is modelled from the spec's interface
description (section 6) and carries a doc comment saying so.
-/

namespace ManticoreSmtlib

/-- Modelled from the spec: the kind (type) of a symbolic variable of
the expression subsystem (`expression.py`, an external collaborator):
boolean, bit-vector of a fixed width, or array with index width,
optional index maximum and value width. -/
inductive VarKind : Type where
  | bool : VarKind
  | bitvec (size : Int) : VarKind
  | array (index_bits : Int) (index_max : Option Int) (value_bits : Int) : VarKind
deriving DecidableEq, Repr

/-- Modelled from the spec: a symbolic variable — a named, typed leaf
expression.  `uid` models Python object identity (two variables with
the same name in different stores are distinct objects); the opaque
taint set is not interpreted by the core and is omitted. -/
structure Variable : Type where
  name : String
  kind : VarKind
  uid : Nat
deriving DecidableEq, Repr

/-- Modelled from the spec: boolean/bit-vector expression trees of the
expression subsystem, restricted to the node shapes the constraint
core inspects: boolean constants (`BoolConstant`), bit-vector
constants, variables, equality (`BoolEq`) and a few connectives. -/
inductive Expr : Type where
  | boolConst (b : Bool) : Expr
  | bvConst (size : Int) (value : Int) : Expr
  | evar (v : Variable) : Expr
  | boolEq (a b : Expr) : Expr
  | eand (a b : Expr) : Expr
  | enot (a : Expr) : Expr
  | ult (a b : Expr) : Expr
deriving DecidableEq, Repr

/-- Modelled from the spec: the `Constant` test of the expression
subsystem (constant boolean / constant bit-vector). -/
def Expr.isConstant : Expr → Bool
  | .boolConst _ => true
  | .bvConst _ _ => true
  | _ => false

/-- Variable occurrences of an expression, in tree order, with
duplicates. -/
def Expr.varList : Expr → List Variable
  | .boolConst _ => []
  | .bvConst _ _ => []
  | .evar v => [v]
  | .boolEq a b => a.varList ++ b.varList
  | .eand a b => a.varList ++ b.varList
  | .enot a => a.varList
  | .ult a b => a.varList ++ b.varList

/-- Modelled from the spec: `get_variables` of `visitors.py` — the set
of free variables of an expression, compared by object identity (a
Python set; here a duplicate-free list). -/
def get_variables (e : Expr) : List Variable := e.varList.dedup

/-- First-match association-list lookup (the embedding of Python
`dict` access; keys are unique at every insertion point in the
source). -/
def alookup {α β : Type} [DecidableEq α] (a : α) : List (α × β) → Option β
  | [] => none
  | p :: rest => if p.1 = a then some p.2 else alookup a rest

/-- Modelled from the spec: `replace` of `visitors.py` — substitute
every occurrence of each mapped variable by the expression the mapping
assigns to it (in every use the core makes, mapping keys are
variables). -/
def replaceExpr (m : List (Variable × Expr)) : Expr → Expr
  | .boolConst b => .boolConst b
  | .bvConst s v => .bvConst s v
  | .evar v =>
    match alookup v m with
    | some e => e
    | none => .evar v
  | .boolEq a b => .boolEq (replaceExpr m a) (replaceExpr m b)
  | .eand a b => .eand (replaceExpr m a) (replaceExpr m b)
  | .enot a => .enot (replaceExpr m a)
  | .ult a b => .ult (replaceExpr m a) (replaceExpr m b)

/-- Modelled from the spec: the expression subsystem's `simplify` —
constant folding, idempotent on already-simplified input.  Only the
behaviour the spec fixes at the interface is modelled: constants fold,
everything else is left in place. -/
def simplify : Expr → Expr
  | .enot a =>
    match simplify a with
    | .boolConst b => .boolConst (!b)
    | a1 => .enot a1
  | .eand a b =>
    match simplify a, simplify b with
    | .boolConst false, _ => .boolConst false
    | _, .boolConst false => .boolConst false
    | .boolConst true, b1 => b1
    | a1, .boolConst true => a1
    | a1, b1 => .eand a1 b1
  | .boolEq a b =>
    match simplify a, simplify b with
    | .boolConst x, .boolConst y => .boolConst (x == y)
    | a1, b1 => .boolEq a1 b1
  | .ult a b =>
    match simplify a, simplify b with
    | .bvConst _ x, .bvConst _ y => .boolConst (decide (x < y))
    | a1, b1 => .ult a1 b1
  | e => e

/-- One node of the store tree: the per-object state of a Python
`ConstraintSet` — `_constraints`, `_sid`, `_declarations`, and whether
`_child` is currently set (the freeze flag). -/
structure CSNode : Type where
  cs : List Expr
  sid : Nat
  decls : List (String × Variable)
  childActive : Bool
deriving DecidableEq, Repr

/-- A store: its own node plus the ancestor chain (nearest parent
first).  `heap` is the variable-identity allocation counter: it models
the Python heap, handing each freshly constructed variable object its
`uid`. -/
structure ConstraintSet : Type where
  top : CSNode
  ancestors : List CSNode
  heap : Nat
deriving DecidableEq, Repr

/-- `ConstraintSet.__init__`: empty store. -/
def ConstraintSet.empty : ConstraintSet := ⟨⟨[], 0, [], false⟩, [], 0⟩

/-- Effective constraints contributed by an ancestor chain (each node:
its local sequence, then its own parent's contribution). -/
def chainCs : List CSNode → List Expr
  | [] => []
  | n :: rest => n.cs ++ chainCs rest

/-- The `constraints` property: `tuple(self._constraints) +
self._parent.constraints` — the local sequence first, then the
parent's effective sequence. -/
def ConstraintSet.constraints (s : ConstraintSet) : List Expr :=
  s.top.cs ++ chainCs s.ancestors

def chainLen : List CSNode → Nat
  | [] => 0
  | n :: rest => n.cs.length + chainLen rest

/-- `__len__`: local count plus the parent chain's count. -/
def ConstraintSet.len (s : ConstraintSet) : Nat :=
  s.top.cs.length + chainLen s.ancestors

/-- The immediate parent store, rebuilt from the ancestor chain. -/
def ConstraintSet.parent (s : ConstraintSet) : Option ConstraintSet :=
  match s.ancestors with
  | [] => none
  | p :: rest => some ⟨p, rest, s.heap⟩

/-- `__enter__` (fork): asserts no active child, creates a child whose
`_sid` and `_declarations` are copied from the parent at this instant,
and freezes the parent.  Returns (frozen parent, child). -/
def ConstraintSet.enter (s : ConstraintSet) : Except String (ConstraintSet × ConstraintSet) :=
  if s.top.childActive then .error "assert failed: self has an active child"
  else
    let ptop : CSNode := { s.top with childActive := true }
    .ok (⟨ptop, s.ancestors, s.heap⟩,
         ⟨⟨[], s.top.sid, s.top.decls, false⟩, ptop :: s.ancestors, s.heap⟩)

/-- `__exit__`: the parent's child slot is cleared, so the parent
becomes addable again. -/
def ConstraintSet.exitFork (s : ConstraintSet) : ConstraintSet :=
  { s with top := { s.top with childActive := false } }

/-- `add`: simplify, reject if frozen; an impossible constant replaces
the local list with `[false]` and then still falls through to the
unconditional append (exactly as the source does, hence `[c] ++ [c]`);
a `true` constant returns early; anything else is appended. -/
def ConstraintSet.add (s : ConstraintSet) (constraint : Expr) : Except String ConstraintSet :=
  let c := simplify constraint
  if s.top.childActive then .error "ConstraintSet is frozen"
  else
    match c with
    | .boolConst b =>
      if b then .ok s
      else .ok { s with top := { s.top with cs := [Expr.boolConst b] ++ [Expr.boolConst b] } }
    | c1 => .ok { s with top := { s.top with cs := s.top.cs ++ [c1] } }

/-- Names present in the declaration table. -/
def ConstraintSet.declNames (s : ConstraintSet) : List String :=
  s.top.decls.map Prod.fst

/-- `_declare`: register a variable; fails if the name is taken. -/
def ConstraintSet.declare (s : ConstraintSet) (v : Variable) :
    Except String (Variable × ConstraintSet) :=
  if v.name ∈ s.declNames then .error "Variable already declared"
  else .ok (v, { s with top := { s.top with decls := s.top.decls ++ [(v.name, v)] } })

/-- `get_variable`: the variable declared under `name`, or `None`. -/
def ConstraintSet.get_variable (s : ConstraintSet) (name : String) : Option Variable :=
  alookup name s.top.decls

/-- `get_declared_variables`. -/
def ConstraintSet.get_declared_variables (s : ConstraintSet) : List Variable :=
  s.top.decls.map Prod.snd

/-- Successor name used by `_make_unique_name`: the previous candidate
with `_<next sid>` appended (the candidate accumulates suffixes). -/
def nameStep (sid : Nat) (name : String) : String :=
  name ++ "_" ++ toString (sid + 1)

/-- Termination measure for `_make_unique_name`'s `while` loop: how
many table names are at least as long as the current candidate.  Each
loop iteration strictly lengthens the candidate, and a colliding
candidate is itself one of the counted names, so the measure strictly
drops. -/
def longNames (names : List String) (name : String) : Nat :=
  (names.filter (fun d => name.length ≤ d.length)).length

theorem length_nameStep (sid : Nat) (name : String) :
    name.length < (nameStep sid name).length := by
  have h1 : ("_" : String).length = 1 := rfl
  simp only [nameStep, String.length_append, h1]
  omega

theorem filter_sub_length (l : List String) {p q : String → Bool}
    (hpq : ∀ x, p x = true → q x = true) :
    (l.filter p).length ≤ (l.filter q).length :=
  (List.monotone_filter_right l hpq).length_le

theorem filter_length_lt {l : List String} {p q : String → Bool}
    (hpq : ∀ x, p x = true → q x = true) {a : String}
    (ha : a ∈ l) (hqa : q a = true) (hpa : p a = false) :
    (l.filter p).length < (l.filter q).length := by
  induction l with
  | nil => cases ha
  | cons x xs ih =>
    rcases List.mem_cons.mp ha with rfl | hx
    · have hle := filter_sub_length xs hpq
      simp only [List.filter_cons, hpa, hqa, if_true, if_false, Bool.false_eq_true,
        List.length_cons]
      omega
    · have hlt := ih hx
      by_cases hp : p x = true
      · have hq := hpq x hp
        simp only [List.filter_cons, hp, hq, if_true, List.length_cons]
        omega
      · have hp1 : p x = false := by simpa using hp
        by_cases hq : q x = true
        · simp only [List.filter_cons, hp1, hq, if_true, if_false, Bool.false_eq_true,
            List.length_cons]
          omega
        · have hq1 : q x = false := by simpa using hq
          simp only [List.filter_cons, hp1, hq1, if_false, Bool.false_eq_true]
          exact hlt

/-- The `while` loop of `_make_unique_name`, together with the
`_get_sid` assertion that fires on each pass (a frozen store cannot
draw a fresh sid).  Takes the table's name list, the freeze flag and
the current sid; returns the chosen name and the final sid. -/
def makeUniqueNameLoop (names : List String) (childActive : Bool) (sid : Nat) (name : String) :
    Except String (String × Nat) :=
  if h : name ∈ names then
    if childActive then .error "assert failed: self has an active child"
    else makeUniqueNameLoop names childActive (sid + 1) (nameStep sid name)
  else .ok (name, sid)
termination_by longNames names name
decreasing_by
  refine filter_length_lt ?_ h ?_ ?_
  · intro x hx
    have hx1 : (nameStep sid name).length ≤ x.length := by simpa using hx
    simpa using le_trans (le_of_lt (length_nameStep sid name)) hx1
  · simp
  · simpa using Nat.not_le.mpr (length_nameStep sid name)

/-- `_make_unique_name`: append `_<sid>` until the candidate is absent
from the declaration table. -/
def ConstraintSet.make_unique_name (s : ConstraintSet) (name : String) :
    Except String (String × ConstraintSet) :=
  match makeUniqueNameLoop s.declNames s.top.childActive s.top.sid name with
  | .error e => .error e
  | .ok (n, sid1) => .ok (n, { s with top := { s.top with sid := sid1 } })

/-- Allocation step shared by the factory operations: hand the fresh
variable object its identity tag and register it via `_declare`. -/
def ConstraintSet.declare1 (s : ConstraintSet) (v : Variable) :
    Except String (Variable × ConstraintSet) :=
  ConstraintSet.declare { s with heap := s.heap + 1 } v

/-- `new_bool`: no requested name forces the default prefix and
collision avoidance; with avoidance the name is disambiguated, without
it a colliding name is an error.  The fresh `BoolVariable` object's
identity is the current heap counter. -/
def ConstraintSet.new_bool (s : ConstraintSet) (name : Option String)
    (avoid_collisions : Bool) : Except String (Variable × ConstraintSet) :=
  let p := match name with
    | none => ("B", true)
    | some n => (n, avoid_collisions)
  match (if p.2 then s.make_unique_name p.1 else .ok (p.1, s)) with
  | .error e => .error e
  | .ok (name1, s1) =>
    if p.2 = false ∧ name1 ∈ s1.declNames then .error "Name already used"
    else s1.declare1 ⟨name1, .bool, s1.heap⟩

/-- `new_bitvec`: the size must be 1 or divisible by 8 (note the
source's check `size % 8 == 0` lets 0 and negative multiples of 8
through); then as `new_bool`. -/
def ConstraintSet.new_bitvec (s : ConstraintSet) (size : Int) (name : Option String)
    (avoid_collisions : Bool) : Except String (Variable × ConstraintSet) :=
  if ¬ (size = 1 ∨ size % 8 = 0) then .error "Invalid bitvec size"
  else
    let p := match name with
      | none => ("BV", true)
      | some n => (n, avoid_collisions)
    match (if p.2 then s.make_unique_name p.1 else .ok (p.1, s)) with
    | .error e => .error e
    | .ok (name1, s1) =>
      if p.2 = false ∧ name1 ∈ s1.declNames then .error "Name already used"
      else s1.declare1 ⟨name1, .bitvec size, s1.heap⟩

/-- `new_array`: as `new_bool` with the array kind.  The `ArrayProxy`
wrapper around the returned `ArrayVariable` is not modelled (the core
itself unwraps it with `.array` where it matters). -/
def ConstraintSet.new_array (s : ConstraintSet) (index_bits : Int) (name : Option String)
    (index_max : Option Int) (value_bits : Int) (avoid_collisions : Bool) :
    Except String (Variable × ConstraintSet) :=
  let p := match name with
    | none => ("A", true)
    | some n => (n, avoid_collisions)
  match (if p.2 then s.make_unique_name p.1 else .ok (p.1, s)) with
  | .error e => .error e
  | .ok (name1, s1) =>
    if p.2 = false ∧ name1 ∈ s1.declNames then .error "Name already used"
    else s1.declare1 ⟨name1, .array index_bits index_max value_bits, s1.heap⟩

/-- Modelled from the spec: the `isinstance(c, BoolConstant)` test of
the expression subsystem, returning the constant's value when the
expression is one. -/
def boolConstValue : Expr → Option Bool
  | .boolConst b => some b
  | _ => none

/-- One pass of the fixed-point scan in `__get_related`: the `for`
loop over a snapshot of `remaining_constraints`, with the in-place
removals and the `break` on a `false` constant made explicit.
Arguments: constraints still to visit this pass, constraints already
visited and kept, the related-constraint and related-variable sets,
and the `added` flag.  Returns (remaining after the pass, related
constraints, related variables, `added`). -/
def relatedScan (toVisit kept rcs : List Expr) (rvs : List Variable) (added : Bool) :
    List Expr × List Expr × List Variable × Bool :=
  match toVisit with
  | [] => (kept, rcs, rvs, added)
  | c :: rest =>
    match boolConstValue c with
    | some b =>
      if b then relatedScan rest (kept ++ [c]) rcs rvs added
      else (kept ++ c :: rest, [c], rvs, added)
    | none =>
      let vars := get_variables c
      if vars.any (fun v => decide (v ∈ rvs)) then
        relatedScan rest kept (rcs ++ [c])
          (rvs ++ vars.filter (fun v => decide (v ∉ rvs))) true
      else relatedScan rest (kept ++ [c]) rcs rvs added

/-- The `while added` loop of `__get_related`.  The fuel bounds the
number of passes: every pass that continues has moved at least one
constraint out of `remaining`, so `remaining.length + 1` passes always
reach the fixed point (see `relatedScan_length`). -/
def relatedLoop : Nat → List Expr → List Expr → List Variable → List Variable × List Expr
  | 0, _, rcs, rvs => (rvs, rcs)
  | fuel + 1, remaining, rcs, rvs =>
    let r := relatedScan remaining [] rcs rvs false
    if r.2.2.2 then relatedLoop fuel r.1 r.2.1 r.2.2.1 else (r.2.2.1, r.2.1)

/-- Union of the variables of a list of constraints (the no-target
branch of `__get_related`). -/
def allVars (cs : List Expr) : List Variable :=
  (cs.foldr (fun c acc => get_variables c ++ acc) []).dedup

/-- `__get_related`: with a target, the fixed-point expansion seeded
by the target's variables over the (set of the) effective constraint
sequence; without a target, all constraints and all their variables. -/
def ConstraintSet.getRelated (s : ConstraintSet) (related_to : Option Expr) :
    List Variable × List Expr :=
  match related_to with
  | some t =>
    let remaining := s.constraints.dedup
    relatedLoop (remaining.length + 1) remaining [] (get_variables t)
  | none => (allVars s.constraints, s.constraints.dedup)

/-- Python dict assignment `constant_bindings[var] = const`: later
assignments to the same variable overwrite earlier ones. -/
def bindingInsert (m : List (Variable × Expr)) (v : Variable) (c : Expr) :
    List (Variable × Expr) :=
  m.filter (fun p => decide (p.1 ≠ v)) ++ [(v, c)]

/-- The spec's step (b), stated in the spec's own terms: scan a
constraint list for equalities of the exact shape
`variable == constant` and record the variable-to-constant bindings. -/
def bindingScan (cs : List Expr) : List (Variable × Expr) :=
  cs.foldl (fun m e =>
    match e with
    | .boolEq (.evar v) c => if c.isConstant then bindingInsert m v c else m
    | _ => m) []

/-- The spec's step (d): a related constraint of the shape
`BoolEq(Variable, Constant)` has its right-hand side pushed through
`simplify(replace(rhs, constant_bindings))` and is re-formed as the
equality `var == rhs'`; other constraints pass through unchanged. -/
def rewriteWithBindings (m : List (Variable × Expr)) (c : Expr) : Expr :=
  match c with
  | .boolEq (.evar v) rhs =>
    if rhs.isConstant then .boolEq (.evar v) (simplify (replaceExpr m rhs)) else c
  | _ => c

/-- The solver-facing core that `to_string` computes before handing
off to the external text translator: the slice, the
variable-to-constant binding map, and the rewritten constraints fed to
the translator.  Declaration-text emission and the translator itself
(steps (c), (e), (f)) are external collaborators and not modelled. -/
structure SerializedCore : Type where
  relatedVars : List Variable
  bindings : List (Variable × Expr)
  emitted : List Expr
deriving DecidableEq, Repr

/-- `to_string`, down to the translator hand-off: step (a) slices via
`__get_related`; step (b) folds over `self.constraints` — the full,
unsliced effective list — collecting `variable == constant` bindings;
step (d) rewrites each related constraint through that binding map. -/
def ConstraintSet.to_string_core (s : ConstraintSet) (related_to : Option Expr)
    (replace_constants : Bool) : SerializedCore :=
  let r := s.getRelated related_to
  let cb :=
    if replace_constants then
      s.constraints.foldl (fun m e =>
        match e with
        | .boolEq (.evar v) c => if c.isConstant then bindingInsert m v c else m
        | _ => m) []
    else []
  ⟨r.1, cb, r.2.map (fun c => if replace_constants then rewriteWithBindings cb c else c)⟩

/-- The loop of `migrate` over the foreign expression's variables:
skip variables already declared here by identity; reuse the name map's
entry for a previously migrated name, failing when that entry does not
resolve to a declared variable; otherwise allocate a fresh local
variable of the same kind under a collision-avoided name and record
both the object-level and the name-level mapping. -/
def migrateVars : ConstraintSet → List (Variable × Variable) → List (String × String) →
    List Variable →
    Except String (ConstraintSet × List (Variable × Variable) × List (String × String))
  | s, om, nm, [] => .ok (s, om, nm)
  | s, om, nm, v :: rest =>
    if v ∈ s.get_declared_variables then migrateVars s om nm rest
    else
      match alookup v.name nm with
      | some migrated_name =>
        match s.get_variable migrated_name with
        | none => .error "name_migration_map contains an unknown variable"
        | some native_var => migrateVars s (om ++ [(v, native_var)]) nm rest
      | none =>
        match (if v.name ∈ s.declNames then s.make_unique_name (v.name ++ "_migrated")
               else .ok (v.name, s)) with
        | .error e => .error e
        | .ok (migrated_name, s1) =>
          match (match v.kind with
                 | .bool => s1.new_bool (some migrated_name) false
                 | .bitvec size => s1.new_bitvec size (some migrated_name) false
                 | .array ib im vb => s1.new_array ib (some migrated_name) im vb false) with
          | .error e => .error e
          | .ok (new_var, s2) =>
            migrateVars s2 (om ++ [(v, new_var)]) (nm ++ [(v.name, new_var.name)]) rest

/-- `migrate`: build the object migration map over the expression's
variables, then substitute.  Returns (migrated expression, updated
store, updated name migration map) — the Python mutates the last two
in place. -/
def ConstraintSet.migrate (s : ConstraintSet) (expression : Expr)
    (nm : List (String × String)) :
    Except String (Expr × ConstraintSet × List (String × String)) :=
  match migrateVars s [] nm (get_variables expression) with
  | .error e => .error e
  | .ok (s1, om, nm1) =>
    .ok (replaceExpr (om.map (fun p => (p.1, Expr.evar p.2))) expression, s1, nm1)

/-! ## Association-list lemmas -/

theorem alookup_eq_none {α β : Type} [DecidableEq α] (a : α) (l : List (α × β)) :
    alookup a l = none ↔ a ∉ l.map Prod.fst := by
  induction l with
  | nil => simp [alookup]
  | cons p rest ih =>
    by_cases h : p.1 = a
    · simp [alookup, h]
    · simp [alookup, h, ih, Ne.symm h]

theorem alookup_append_some {α β : Type} [DecidableEq α] {a : α} {l1 : List (α × β)}
    (l2 : List (α × β)) {b : β} (h : alookup a l1 = some b) :
    alookup a (l1 ++ l2) = some b := by
  induction l1 with
  | nil => simp [alookup] at h
  | cons p rest ih =>
    by_cases hp : p.1 = a
    · simp [alookup, hp] at h ⊢
      exact h
    · simp [alookup, hp] at h ⊢
      exact ih h

theorem alookup_append_none {α β : Type} [DecidableEq α] {a : α} {l1 : List (α × β)}
    (l2 : List (α × β)) (h : alookup a l1 = none) :
    alookup a (l1 ++ l2) = alookup a l2 := by
  induction l1 with
  | nil => simp
  | cons p rest ih =>
    by_cases hp : p.1 = a
    · simp [alookup, hp] at h
    · simp [alookup, hp] at h ⊢
      exact ih h

/-! ## Shared concrete material for witnesses and counterexamples -/

def bVar : Variable := ⟨"b", .bool, 0⟩
def xVar : Variable := ⟨"x", .bitvec 32, 1⟩
def parentNode : CSNode := ⟨[Expr.evar xVar], 0, [], false⟩
def childStore : ConstraintSet := ⟨⟨[Expr.evar bVar], 0, [], false⟩, [parentNode], 2⟩

/-! ## C1 -/

/-- C1 (counterexample): on a store with one prior local constraint,
`add(false)` leaves a local sequence of length 2 (the source replaces
the list with `[false]` and then still appends), so the claim's
"exactly one constraint" is false at this input. -/
theorem add_false_counterexample :
    ((childStore.add (Expr.boolConst false)).toOption.map
      (fun s => s.top.cs.length)) = some 2 ∧ 2 ≠ 1 := by
  constructor
  · rfl
  · decide

/-- C1 (amended): for every unfrozen store and every constraint that
simplifies to the constant false, `add` replaces the whole local
sequence and then falls through to the unconditional append: the local
sequence becomes exactly `[false, false]` (the constant false twice,
every prior local constraint dropped), and the ancestors' sequences
are untouched. -/
theorem add_false_amended (s : ConstraintSet) (c : Expr)
    (hf : s.top.childActive = false) (hs : simplify c = .boolConst false) :
    s.add c =
      .ok { s with top := { s.top with
              cs := [Expr.boolConst false, Expr.boolConst false] } } := by
  simp [ConstraintSet.add, hs, hf]

/-- C1 witness: the amended claim at the concrete `childStore` (one
prior local constraint, one ancestor constraint) and a conjunction
that actually simplifies to false. -/
theorem add_false_amended_witness :
    childStore.top.childActive = false ∧
    simplify (Expr.eand (Expr.boolConst false) (Expr.evar bVar)) = .boolConst false ∧
    childStore.add (Expr.eand (Expr.boolConst false) (Expr.evar bVar)) =
      .ok { childStore with top := { childStore.top with
              cs := [Expr.boolConst false, Expr.boolConst false] } } :=
  ⟨rfl, rfl, add_false_amended childStore _ rfl rfl⟩

/-! ## C2 -/

/-- C2 (counterexample): on a store with a parent, the `constraints`
property does NOT put the parent's constraints first: at this concrete
child store the result is local-then-parent, not parent-then-local. -/
theorem constraints_order_counterexample :
    childStore.constraints ≠ chainCs childStore.ancestors ++ childStore.top.cs := by
  decide

/-- C2 (amended): for every store with a parent, the effective
constraint sequence (the `constraints` property) equals the store's
LOCAL sequence followed by the parent's effective sequence — every
local constraint precedes every parent constraint in the returned
order. -/
theorem constraints_local_first (s p : ConstraintSet) (h : s.parent = some p) :
    s.constraints = s.top.cs ++ p.constraints := by
  cases s with
  | mk top anc heap =>
    cases anc with
    | nil => simp [ConstraintSet.parent] at h
    | cons a rest =>
      simp [ConstraintSet.parent] at h
      subst h
      simp [ConstraintSet.constraints, chainCs]

/-- C2 witness: the amended claim at the concrete child store. -/
theorem constraints_local_first_witness :
    childStore.parent = some ⟨parentNode, [], 2⟩ ∧
    childStore.constraints = childStore.top.cs ++ (⟨parentNode, [], 2⟩ : ConstraintSet).constraints :=
  ⟨rfl, constraints_local_first childStore _ rfl⟩

/-! ## C4 -/

/-- An unfrozen store accepts every constraint (`add` has no other
failure mode). -/
theorem add_isOk (s : ConstraintSet) (c : Expr) (hf : s.top.childActive = false) :
    (s.add c).isOk = true := by
  simp only [ConstraintSet.add, hf, if_false, Bool.false_eq_true]
  cases hsc : simplify c
  case boolConst b => cases b <;> simp [Except.isOk, Except.toBool]
  all_goals simp [Except.isOk, Except.toBool]

/-- C4: while a fork is outstanding every `add` on the parent raises
("ConstraintSet is frozen"), and after the fork is released `add` on
the parent succeeds again, for every constraint. -/
theorem frozen_add_raises (s p ch : ConstraintSet) (h : s.enter = .ok (p, ch)) (c : Expr) :
    p.add c = .error "ConstraintSet is frozen" ∧ (p.exitFork.add c).isOk = true := by
  by_cases hca : s.top.childActive
  · simp [ConstraintSet.enter, hca] at h
  · simp only [ConstraintSet.enter, hca, if_false, Bool.false_eq_true, Except.ok.injEq,
      Prod.mk.injEq] at h
    obtain ⟨hp, _⟩ := h
    constructor
    · rw [← hp]
      simp [ConstraintSet.add]
    · exact add_isOk _ c (by rw [← hp]; rfl)

/-- C4 witness: fork the concrete child store and check both halves on
a concrete constraint. -/
theorem frozen_add_raises_witness :
    ∃ p ch, childStore.enter = .ok (p, ch) ∧
      p.add (Expr.evar bVar) = .error "ConstraintSet is frozen" ∧
      (p.exitFork.add (Expr.evar bVar)).isOk = true :=
  ⟨_, _, rfl, frozen_add_raises childStore _ _ rfl (Expr.evar bVar)⟩

/-! ## C9 -/

/-- C9: immediately after a fork the child's local sequence is empty,
its effective sequence is exactly the parent's effective sequence at
fork time, and its length equals the parent's length. -/
theorem fork_child_snapshot (s p ch : ConstraintSet) (h : s.enter = .ok (p, ch)) :
    ch.top.cs = [] ∧ ch.constraints = s.constraints ∧ ch.len = s.len := by
  by_cases hca : s.top.childActive
  · simp [ConstraintSet.enter, hca] at h
  · simp only [ConstraintSet.enter, hca, if_false, Bool.false_eq_true, Except.ok.injEq,
      Prod.mk.injEq] at h
    obtain ⟨_, hch⟩ := h
    subst hch
    refine ⟨rfl, ?_, ?_⟩
    · simp [ConstraintSet.constraints, chainCs]
    · simp [ConstraintSet.len, chainLen]

/-- C9 witness: the fork of the concrete child store. -/
theorem fork_child_snapshot_witness :
    ∃ p ch, childStore.enter = .ok (p, ch) ∧
      ch.top.cs = [] ∧ ch.constraints = childStore.constraints ∧ ch.len = childStore.len :=
  ⟨_, _, rfl, fork_child_snapshot childStore _ _ rfl⟩

/-! ## C10 -/

/-- C10: `get_variable` returns `none` (it does not raise — it is a
total function into `Option`) exactly when no variable is declared
under the name, and after a successful `_declare` of `v` it returns
exactly `v` for `v`'s name while answers for other names are
unchanged. -/
theorem get_variable_spec (s : ConstraintSet) (name : String) :
    (s.get_variable name = none ↔ name ∉ s.declNames) ∧
    (∀ v v1 s1, s.declare v = .ok (v1, s1) →
      s1.get_variable v.name = some v ∧
      ∀ m, m ≠ v.name → s1.get_variable m = s.get_variable m) := by
  constructor
  · exact alookup_eq_none name s.top.decls
  · intro v v1 s1 h
    by_cases hv : v.name ∈ s.declNames
    · simp [ConstraintSet.declare, hv] at h
    · simp only [ConstraintSet.declare, hv, if_false, Bool.false_eq_true, Except.ok.injEq,
        Prod.mk.injEq] at h
      obtain ⟨_, hs1⟩ := h
      subst hs1
      constructor
      · show alookup v.name (s.top.decls ++ [(v.name, v)]) = some v
        rw [alookup_append_none _ ((alookup_eq_none v.name s.top.decls).mpr hv)]
        simp [alookup]
      · intro m hm
        show alookup m (s.top.decls ++ [(v.name, v)]) = alookup m s.top.decls
        cases hl : alookup m s.top.decls with
        | some b => exact alookup_append_some _ hl
        | none =>
          rw [alookup_append_none _ hl]
          simp [alookup, Ne.symm hm, hl]

/-- The store after `ConstraintSet.empty.declare bVar`. -/
def declStore : ConstraintSet := ⟨⟨[], 0, [("b", bVar)], false⟩, [], 0⟩

/-- C10 witness: the lookup contract at concrete inputs. -/
theorem get_variable_spec_witness :
    ConstraintSet.empty.get_variable "q" = none ∧
    ConstraintSet.empty.declare bVar = .ok (bVar, declStore) ∧
    declStore.get_variable "b" = some bVar ∧
    declStore.get_variable "q" = ConstraintSet.empty.get_variable "q" := by
  refine ⟨(get_variable_spec ConstraintSet.empty "q").1.mpr (by decide), rfl, ?_, ?_⟩
  · exact ((get_variable_spec ConstraintSet.empty "q").2 bVar bVar declStore rfl).1
  · exact ((get_variable_spec ConstraintSet.empty "q").2 bVar bVar declStore rfl).2 "q" (by decide)

/-! ## The `_make_unique_name` loop -/

theorem mun_loop_not_mem (names : List String) (ca : Bool) :
    ∀ sid name n1 sid1, makeUniqueNameLoop names ca sid name = .ok (n1, sid1) →
      n1 ∉ names := by
  intro sid name
  induction sid, name using makeUniqueNameLoop.induct names ca with
  | case1 sid name hmem hca =>
    intro n1 sid1 h
    rw [makeUniqueNameLoop] at h
    simp [hmem, hca] at h
  | case2 sid name hmem hca ih =>
    intro n1 sid1 h
    rw [makeUniqueNameLoop] at h
    simp only [dif_pos hmem, if_neg hca] at h
    exact ih n1 sid1 h
  | case3 sid name hmem =>
    intro n1 sid1 h
    rw [makeUniqueNameLoop] at h
    simp only [dif_neg hmem, Except.ok.injEq, Prod.mk.injEq] at h
    obtain ⟨rfl, -⟩ := h
    exact hmem

theorem mun_loop_ok (names : List String) :
    ∀ sid name, ∃ n1 sid1, makeUniqueNameLoop names false sid name = .ok (n1, sid1) := by
  intro sid name
  induction sid, name using makeUniqueNameLoop.induct names false with
  | case1 sid name hmem hca => exact absurd hca (by simp)
  | case2 sid name hmem hca ih =>
    obtain ⟨n1, sid1, h⟩ := ih
    refine ⟨n1, sid1, ?_⟩
    rw [makeUniqueNameLoop]
    simpa [hmem] using h
  | case3 sid name hmem =>
    refine ⟨name, sid, ?_⟩
    rw [makeUniqueNameLoop]
    simp [hmem]

/-- Characterization of a successful `_make_unique_name`: the chosen
name is absent from the table, and the store changes only in its sid
counter. -/
theorem make_unique_name_ok {s : ConstraintSet} {name n1 : String} {s1 : ConstraintSet}
    (h : s.make_unique_name name = .ok (n1, s1)) :
    n1 ∉ s.declNames ∧ s1 = { s with top := { s.top with sid := s1.top.sid } } := by
  unfold ConstraintSet.make_unique_name at h
  cases hl : makeUniqueNameLoop s.declNames s.top.childActive s.top.sid name with
  | error e => rw [hl] at h; cases h
  | ok p =>
    rw [hl] at h
    obtain ⟨n0, sid0⟩ := p
    simp only [Except.ok.injEq, Prod.mk.injEq] at h
    obtain ⟨rfl, hs1⟩ := h
    constructor
    · exact mun_loop_not_mem s.declNames s.top.childActive s.top.sid name _ sid0 hl
    · rw [← hs1]

/-- `_make_unique_name` succeeds on every unfrozen store. -/
theorem make_unique_name_isOk (s : ConstraintSet) (name : String)
    (hca : s.top.childActive = false) :
    ∃ n1 s1, s.make_unique_name name = .ok (n1, s1) := by
  obtain ⟨n1, sid1, h⟩ := mun_loop_ok s.declNames s.top.sid name
  refine ⟨n1, { s with top := { s.top with sid := sid1 } }, ?_⟩
  unfold ConstraintSet.make_unique_name
  rw [hca, h]

/-! ## C6 -/

/-- C6 (counterexample): `new_bitvec` with size 0 succeeds, although 0
is neither 1 nor a positive multiple of 8 — the source's check
`size % 8 == 0` lets 0 through, so "raises exactly when size is not 1
and not a positive multiple of 8" is false at size 0. -/
theorem new_bitvec_size_zero_counterexample :
    (ConstraintSet.empty.new_bitvec 0 (some "x") false).isOk = true ∧
    ¬ ((0 : Int) = 1 ∨ (0 < (0 : Int) ∧ (0 : Int) % 8 = 0)) := by
  constructor
  · rfl
  · decide

/-- C6 (amended): `new_bitvec(size, ...)` raises exactly when `size`
is not 1 and not a multiple of 8 (`size % 8 == 0`, under which 0 and
negative multiples of 8 are also accepted); in particular size 7 fails
while sizes 1, 8, and 16 succeed. -/
theorem new_bitvec_size_check (s : ConstraintSet) (size : Int) (n : String)
    (hn : n ∉ s.declNames) :
    (¬ (size = 1 ∨ size % 8 = 0) →
      s.new_bitvec size (some n) false = .error "Invalid bitvec size") ∧
    ((size = 1 ∨ size % 8 = 0) → (s.new_bitvec size (some n) false).isOk = true) := by
  have hn2 : n ∉ List.map Prod.fst s.top.decls := hn
  constructor
  · intro h
    unfold ConstraintSet.new_bitvec
    rw [if_pos h]
  · intro h
    unfold ConstraintSet.new_bitvec
    rw [if_neg (not_not_intro h)]
    simp [ConstraintSet.declare1, ConstraintSet.declare, ConstraintSet.declNames, hn2,
      Except.isOk, Except.toBool]

/-- C6 witness: size 7 fails, sizes 1, 8 and 16 succeed, on the empty
store. -/
theorem new_bitvec_size_check_witness :
    "x" ∉ ConstraintSet.empty.declNames ∧
    ConstraintSet.empty.new_bitvec 7 (some "x") false = .error "Invalid bitvec size" ∧
    (ConstraintSet.empty.new_bitvec 1 (some "x") false).isOk = true ∧
    (ConstraintSet.empty.new_bitvec 8 (some "x") false).isOk = true ∧
    (ConstraintSet.empty.new_bitvec 16 (some "x") false).isOk = true := by
  refine ⟨by decide, ?_, ?_, ?_, ?_⟩
  · exact (new_bitvec_size_check ConstraintSet.empty 7 "x" (by decide)).1 (by decide)
  · exact (new_bitvec_size_check ConstraintSet.empty 1 "x" (by decide)).2 (by decide)
  · exact (new_bitvec_size_check ConstraintSet.empty 8 "x" (by decide)).2 (by decide)
  · exact (new_bitvec_size_check ConstraintSet.empty 16 "x" (by decide)).2 (by decide)

/-! ## C7 -/

/-- C7: for each variable-allocation operation with an explicitly
requested name that collides with the declaration table: with
collision avoidance off the call fails; with collision avoidance on
(on an unfrozen store) the call succeeds and the returned variable's
name is a disambiguated name — distinct from the requested name and
absent from the table before registration. -/
theorem explicit_name_collisions (s : ConstraintSet) (n : String) (size ib vb : Int)
    (im : Option Int) (hn : n ∈ s.declNames) (hsize : size = 1 ∨ size % 8 = 0)
    (hca : s.top.childActive = false) :
    s.new_bool (some n) false = .error "Name already used" ∧
    s.new_bitvec size (some n) false = .error "Name already used" ∧
    s.new_array ib (some n) im vb false = .error "Name already used" ∧
    (∃ v s1, s.new_bool (some n) true = .ok (v, s1) ∧
       v.name ≠ n ∧ v.name ∉ s.declNames) ∧
    (∃ v s1, s.new_bitvec size (some n) true = .ok (v, s1) ∧
       v.name ≠ n ∧ v.name ∉ s.declNames) ∧
    (∃ v s1, s.new_array ib (some n) im vb true = .ok (v, s1) ∧
       v.name ≠ n ∧ v.name ∉ s.declNames) := by
  obtain ⟨n1, s1, hmun⟩ := make_unique_name_isOk s n hca
  obtain ⟨hn1, hs1⟩ := make_unique_name_ok hmun
  have hnames : s1.declNames = s.declNames := by rw [hs1]; rfl
  have hne : n1 ≠ n := fun heq => hn1 (heq ▸ hn)
  have hfresh : ∀ k : VarKind, ConstraintSet.declare1 s1 ⟨n1, k, s1.heap⟩ =
      .ok (⟨n1, k, s1.heap⟩,
        { s1 with
          top := { s1.top with decls := s1.top.decls ++ [(n1, ⟨n1, k, s1.heap⟩)] },
          heap := s1.heap + 1 }) := by
    intro k
    unfold ConstraintSet.declare1 ConstraintSet.declare
    rw [if_neg]
    intro hmem
    exact hn1 (by rw [← hnames]; exact hmem)
  have hn3 : n ∈ List.map Prod.fst s.top.decls := hn
  refine ⟨?_, ?_, ?_, ?_, ?_, ?_⟩
  · simp [ConstraintSet.new_bool, ConstraintSet.declNames, hn3]
  · unfold ConstraintSet.new_bitvec
    rw [if_neg (not_not_intro hsize)]
    simp [ConstraintSet.declNames, hn3]
  · simp [ConstraintSet.new_array, ConstraintSet.declNames, hn3]
  · refine ⟨⟨n1, .bool, s1.heap⟩,
      { s1 with
        top := { s1.top with decls := s1.top.decls ++ [(n1, ⟨n1, VarKind.bool, s1.heap⟩)] },
        heap := s1.heap + 1 }, ?_, hne, hn1⟩
    simp only [ConstraintSet.new_bool]
    rw [hmun]
    simpa using hfresh .bool
  · refine ⟨⟨n1, .bitvec size, s1.heap⟩,
      { s1 with
        top := { s1.top with decls := s1.top.decls ++ [(n1, ⟨n1, VarKind.bitvec size, s1.heap⟩)] },
        heap := s1.heap + 1 }, ?_, hne, hn1⟩
    unfold ConstraintSet.new_bitvec
    rw [if_neg (not_not_intro hsize)]
    simp only []
    rw [hmun]
    simpa using hfresh (.bitvec size)
  · refine ⟨⟨n1, .array ib im vb, s1.heap⟩,
      { s1 with
        top := { s1.top with decls := s1.top.decls ++ [(n1, ⟨n1, VarKind.array ib im vb, s1.heap⟩)] },
        heap := s1.heap + 1 }, ?_, hne, hn1⟩
    simp only [ConstraintSet.new_array]
    rw [hmun]
    simpa using hfresh (.array ib im vb)

/-- The concrete store used by C7's witness: one declared name. -/
def collideStore : ConstraintSet := ⟨⟨[], 0, [("n", ⟨"n", .bool, 0⟩)], false⟩, [], 1⟩

/-- C7 witness: the collision contract on a concrete store holding the
name "n". -/
theorem explicit_name_collisions_witness :
    "n" ∈ collideStore.declNames ∧ ((8 : Int) = 1 ∨ (8 : Int) % 8 = 0) ∧
    collideStore.top.childActive = false ∧
    (collideStore.new_bool (some "n") false = .error "Name already used" ∧
     collideStore.new_bitvec 8 (some "n") false = .error "Name already used" ∧
     collideStore.new_array 32 (some "n") none 8 false = .error "Name already used" ∧
     (∃ v s1, collideStore.new_bool (some "n") true = .ok (v, s1) ∧
        v.name ≠ "n" ∧ v.name ∉ collideStore.declNames) ∧
     (∃ v s1, collideStore.new_bitvec 8 (some "n") true = .ok (v, s1) ∧
        v.name ≠ "n" ∧ v.name ∉ collideStore.declNames) ∧
     (∃ v s1, collideStore.new_array 32 (some "n") none 8 true = .ok (v, s1) ∧
        v.name ≠ "n" ∧ v.name ∉ collideStore.declNames)) :=
  ⟨by decide, by decide, rfl,
   explicit_name_collisions collideStore "n" 8 32 8 none (by decide) (by decide) rfl⟩

/-! ## C3: the slicer's false short-circuit -/

theorem boolConstValue_false {c : Expr} (h : boolConstValue c = some false) :
    c = Expr.boolConst false := by
  cases c <;> simp [boolConstValue] at h
  rw [h]

/-- A pass of the slicer over constraints containing the literal
`false` always ends at the break: the related-constraint set comes
back as exactly `[false]`, and the `false` constant is still in
`remaining` (the source never removes it). -/
theorem relatedScan_false (toVisit kept rcs : List Expr) (rvs : List Variable)
    (added : Bool) (h : Expr.boolConst false ∈ toVisit) :
    (relatedScan toVisit kept rcs rvs added).2.1 = [Expr.boolConst false] ∧
    Expr.boolConst false ∈ (relatedScan toVisit kept rcs rvs added).1 := by
  induction toVisit generalizing kept rcs rvs added with
  | nil => cases h
  | cons c rest ih =>
    rcases List.mem_cons.mp h with heq | hrest
    · rw [← heq]
      simp [relatedScan, boolConstValue]
    · cases hb : boolConstValue c with
      | some b =>
        cases b
        · obtain rfl := boolConstValue_false hb
          simp [relatedScan, boolConstValue]
        · simp only [relatedScan, hb]
          rw [if_pos trivial]
          exact ih _ _ _ _ hrest
      | none =>
        simp only [relatedScan, hb]
        split
        · exact ih _ _ _ _ hrest
        · exact ih _ _ _ _ hrest

/-- A pass never grows `remaining`, and a pass that reports `added`
without having been handed `added` has strictly shrunk it. -/
theorem relatedScan_length (toVisit kept rcs : List Expr) (rvs : List Variable)
    (added : Bool) :
    (relatedScan toVisit kept rcs rvs added).1.length ≤ kept.length + toVisit.length ∧
    ((relatedScan toVisit kept rcs rvs added).2.2.2 = true → added = true ∨
      (relatedScan toVisit kept rcs rvs added).1.length < kept.length + toVisit.length) := by
  induction toVisit generalizing kept rcs rvs added with
  | nil =>
    simp only [relatedScan, List.length_nil]
    exact ⟨by omega, fun h => Or.inl h⟩
  | cons c rest ih =>
    cases hb : boolConstValue c with
    | some b =>
      cases b
      · simp only [relatedScan, hb, Bool.false_eq_true, if_false, List.length_cons,
          List.length_append]
        refine ⟨by omega, fun h => Or.inl h⟩
      · simp only [relatedScan, hb, List.length_cons]
        rw [if_pos trivial]
        refine ⟨le_trans (ih _ _ _ _).1 ?_, fun h => ((ih _ _ _ _).2 h).imp id
          (fun h2 => lt_of_lt_of_le h2 ?_)⟩
        · simp only [List.length_append, List.length_cons, List.length_nil]
          omega
        · simp only [List.length_append, List.length_cons, List.length_nil]
          omega
    | none =>
      simp only [relatedScan, hb, List.length_cons]
      split
      · refine ⟨le_trans (ih _ _ _ _).1 (by omega),
          fun _ => Or.inr (lt_of_le_of_lt (ih _ _ _ _).1 (by omega))⟩
      · refine ⟨le_trans (ih _ _ _ _).1 ?_, fun h => ((ih _ _ _ _).2 h).imp id
          (fun h2 => lt_of_lt_of_le h2 ?_)⟩
        · simp only [List.length_append, List.length_cons, List.length_nil]
          omega
        · simp only [List.length_append, List.length_cons, List.length_nil]
          omega

/-- The fixed-point loop with the literal `false` in `remaining` and
enough fuel ends with related constraints exactly `[false]`. -/
theorem relatedLoop_false (fuel : Nat) :
    ∀ remaining rcs rvs, remaining.length < fuel →
      Expr.boolConst false ∈ remaining →
      (relatedLoop fuel remaining rcs rvs).2 = [Expr.boolConst false] := by
  induction fuel with
  | zero =>
    intro remaining _ _ hlen _
    omega
  | succ f ih =>
    intro remaining rcs rvs hlen hmem
    have hs := relatedScan_false remaining [] rcs rvs false hmem
    have hl := relatedScan_length remaining [] rcs rvs false
    simp only [relatedLoop]
    by_cases hadd : (relatedScan remaining [] rcs rvs false).2.2.2 = true
    · rw [if_pos hadd]
      apply ih _ _ _ _ hs.2
      rcases hl.2 hadd with h | h
      · cases h
      · simp only [List.length_nil, Nat.zero_add] at h
        omega
    · rw [if_neg hadd]
      exact hs.1

/-- C3 (amended): for every store whose effective constraint set
contains the literal constant false, slicing with ANY given target
returns exactly the singleton constraint set {false}.  (With no target
at all the source takes the other branch and returns the full set —
see the counterexample.) -/
theorem slice_false_singleton (s : ConstraintSet) (t : Expr)
    (h : Expr.boolConst false ∈ s.constraints) :
    (s.getRelated (some t)).2 = [Expr.boolConst false] := by
  simp only [ConstraintSet.getRelated]
  apply relatedLoop_false
  · omega
  · exact List.mem_dedup.mpr h

/-- Store with the literal false and one more constraint, for C3's
counterexample and witness. -/
def sliceStore : ConstraintSet :=
  ⟨⟨[Expr.boolConst false, Expr.evar bVar], 0, [], false⟩, [], 2⟩

/-- C3 (counterexample): with NO target, slicing a store containing
the literal false does not return {false}: the no-target branch of
`__get_related` returns the whole constraint set. -/
theorem slice_no_target_counterexample :
    Expr.boolConst false ∈ sliceStore.constraints ∧
    (sliceStore.getRelated none).2 ≠ [Expr.boolConst false] := by
  constructor
  · decide
  · decide

/-- C3 witness: the amended claim at a concrete store and target. -/
theorem slice_false_singleton_witness :
    Expr.boolConst false ∈ sliceStore.constraints ∧
    (sliceStore.getRelated (some (Expr.evar bVar))).2 = [Expr.boolConst false] :=
  ⟨by decide, slice_false_singleton sliceStore (Expr.evar bVar) (by decide)⟩

/-! ## C8: serializer bindings come from the full list -/

def yVar : Variable := ⟨"y", .bitvec 8, 5⟩
def xEq5 : Expr := .boolEq (.evar xVar) (.bvConst 32 5)
def yEq7 : Expr := .boolEq (.evar yVar) (.bvConst 8 7)

/-- Store with two variable-to-constant equalities, of which a slice
targeted at `x` retains only one. -/
def serStore : ConstraintSet := ⟨⟨[xEq5, yEq7], 0, [], false⟩, [], 6⟩

/-- C8: with constant replacement enabled the serializer's
variable-to-constant binding map is computed by scanning the full
(unsliced) effective constraint list, and every sliced constraint is
rewritten through exactly that map — while at the concrete `serStore`
the full-list scan differs from a scan of the sliced subset (the
binding for `y` is found only in the full list), so a binding found
anywhere is applied when rewriting the sliced constraints. -/
theorem to_string_bindings_full (s : ConstraintSet) (related_to : Option Expr) :
    (s.to_string_core related_to true).bindings = bindingScan s.constraints ∧
    (s.to_string_core related_to true).emitted =
      (s.getRelated related_to).2.map (rewriteWithBindings (bindingScan s.constraints)) ∧
    bindingScan serStore.constraints ≠
      bindingScan ((serStore.getRelated (some (Expr.evar xVar))).2) ∧
    (serStore.getRelated (some (Expr.evar xVar))).2 = [xEq5] := by
  refine ⟨rfl, ?_, by decide, by decide⟩
  simp [ConstraintSet.to_string_core, bindingScan]

/-! ## C5: migration -/

/-- Successful `_declare` through `declare1`, component-wise. -/
theorem declare1_ok {s : ConstraintSet} {v v1 : Variable} {s2 : ConstraintSet}
    (h : s.declare1 v = .ok (v1, s2)) :
    v1 = v ∧ v.name ∉ s.declNames ∧
    s2.top.cs = s.top.cs ∧ s2.top.sid = s.top.sid ∧
    s2.top.decls = s.top.decls ++ [(v.name, v)] ∧
    s2.top.childActive = s.top.childActive ∧
    s2.ancestors = s.ancestors ∧ s2.heap = s.heap + 1 := by
  unfold ConstraintSet.declare1 ConstraintSet.declare at h
  by_cases hmem : v.name ∈ s.declNames
  · rw [if_pos (show v.name ∈ ({ s with heap := s.heap + 1 } : ConstraintSet).declNames
      from hmem)] at h
    cases h
  · rw [if_neg (show v.name ∉ ({ s with heap := s.heap + 1 } : ConstraintSet).declNames
      from hmem)] at h
    simp only [Except.ok.injEq, Prod.mk.injEq] at h
    obtain ⟨hv, hs⟩ := h
    subst hs
    exact ⟨hv.symm, hmem, rfl, rfl, rfl, rfl, rfl, rfl⟩

/-- Successful `new_bool` with an explicit name and collision
avoidance off. -/
theorem new_bool_ok {s : ConstraintSet} {n : String} {v : Variable} {s2 : ConstraintSet}
    (h : s.new_bool (some n) false = .ok (v, s2)) :
    v = ⟨n, VarKind.bool, s.heap⟩ ∧ n ∉ s.declNames ∧
    s2.top.cs = s.top.cs ∧ s2.top.sid = s.top.sid ∧
    s2.top.decls = s.top.decls ++ [(n, v)] ∧
    s2.top.childActive = s.top.childActive ∧
    s2.ancestors = s.ancestors ∧ s2.heap = s.heap + 1 := by
  by_cases hmem : n ∈ s.declNames
  · simp [ConstraintSet.new_bool, hmem] at h
  · simp [ConstraintSet.new_bool, hmem] at h
    obtain ⟨hv, hn, hcs, hsid, hdecls, hca, hanc, hheap⟩ := declare1_ok h
    exact ⟨hv, hn, hcs, hsid, by simpa [hv] using hdecls, hca, hanc, hheap⟩

/-- Successful `new_bitvec` with an explicit name and collision
avoidance off. -/
theorem new_bitvec_ok {s : ConstraintSet} {size : Int} {n : String} {v : Variable}
    {s2 : ConstraintSet} (h : s.new_bitvec size (some n) false = .ok (v, s2)) :
    v = ⟨n, VarKind.bitvec size, s.heap⟩ ∧ n ∉ s.declNames ∧
    s2.top.cs = s.top.cs ∧ s2.top.sid = s.top.sid ∧
    s2.top.decls = s.top.decls ++ [(n, v)] ∧
    s2.top.childActive = s.top.childActive ∧
    s2.ancestors = s.ancestors ∧ s2.heap = s.heap + 1 := by
  unfold ConstraintSet.new_bitvec at h
  by_cases hsize : ¬ (size = 1 ∨ size % 8 = 0)
  · rw [if_pos hsize] at h
    cases h
  · rw [if_neg hsize] at h
    by_cases hmem : n ∈ s.declNames
    · simp [hmem] at h
    · simp [hmem] at h
      obtain ⟨hv, hn, hcs, hsid, hdecls, hca, hanc, hheap⟩ := declare1_ok h
      exact ⟨hv, hn, hcs, hsid, by simpa [hv] using hdecls, hca, hanc, hheap⟩

/-- Successful `new_array` with an explicit name and collision
avoidance off. -/
theorem new_array_ok {s : ConstraintSet} {ib vb : Int} {im : Option Int} {n : String}
    {v : Variable} {s2 : ConstraintSet}
    (h : s.new_array ib (some n) im vb false = .ok (v, s2)) :
    v = ⟨n, VarKind.array ib im vb, s.heap⟩ ∧ n ∉ s.declNames ∧
    s2.top.cs = s.top.cs ∧ s2.top.sid = s.top.sid ∧
    s2.top.decls = s.top.decls ++ [(n, v)] ∧
    s2.top.childActive = s.top.childActive ∧
    s2.ancestors = s.ancestors ∧ s2.heap = s.heap + 1 := by
  by_cases hmem : n ∈ s.declNames
  · simp [ConstraintSet.new_array, hmem] at h
  · simp [ConstraintSet.new_array, hmem] at h
    obtain ⟨hv, hn, hcs, hsid, hdecls, hca, hanc, hheap⟩ := declare1_ok h
    exact ⟨hv, hn, hcs, hsid, by simpa [hv] using hdecls, hca, hanc, hheap⟩

/-- Re-running the migration loop over the same variable list, with
the name map and store produced by a first successful run, is a no-op:
the store and name map are unchanged and the object map gains exactly
the same entries (`delta`).  The hypothesis `v.uid < s.heap` for the
listed variables models that the foreign variable objects already
exist on the Python heap, so no allocation can produce them again. -/
theorem migrateVars_idem (vs : List Variable) :
    ∀ (s : ConstraintSet) (om om0 : List (Variable × Variable)) (nm : List (String × String))
      (s1 : ConstraintSet) (om1 : List (Variable × Variable)) (nm1 : List (String × String)),
      (∀ v ∈ vs, v.uid < s.heap) →
      migrateVars s om nm vs = .ok (s1, om1, nm1) →
      ∃ delta ds ns,
        om1 = om ++ delta ∧
        s1.top.decls = s.top.decls ++ ds ∧
        (∀ p ∈ ds, s.heap ≤ (Prod.snd p).uid) ∧
        s.heap ≤ s1.heap ∧
        nm1 = nm ++ ns ∧
        migrateVars s1 om0 nm1 vs = .ok (s1, om0 ++ delta, nm1) := by
  induction vs with
  | nil =>
    intro s om om0 nm s1 om1 nm1 huid h
    simp only [migrateVars, Except.ok.injEq, Prod.mk.injEq] at h
    obtain ⟨rfl, rfl, rfl⟩ := h
    exact ⟨[], [], [], by simp, by simp, by simp, le_refl _, by simp, by simp [migrateVars]⟩
  | cons v rest ih =>
    intro s om om0 nm s1 om1 nm1 huid h
    have hvuid : v.uid < s.heap := huid v (List.mem_cons_self v rest)
    have huidrest : ∀ v1 ∈ rest, v1.uid < s.heap :=
      fun v1 hv1 => huid v1 (List.mem_cons_of_mem v hv1)
    simp only [migrateVars] at h
    by_cases hA : v ∈ s.get_declared_variables
    · rw [if_pos hA] at h
      obtain ⟨delta, ds, ns, ho, hd, hdu, hh, hn, hcall2⟩ :=
        ih s om om0 nm s1 om1 nm1 huidrest h
      refine ⟨delta, ds, ns, ho, hd, hdu, hh, hn, ?_⟩
      have hA1 : v ∈ s1.get_declared_variables := by
        simp only [ConstraintSet.get_declared_variables] at hA ⊢
        rw [hd]
        simp only [List.map_append, List.mem_append]
        exact Or.inl hA
      simp only [migrateVars, if_pos hA1]
      exact hcall2
    · rw [if_neg hA] at h
      cases halk : alookup v.name nm with
      | some mn =>
        simp only [halk] at h
        cases hgv : s.get_variable mn with
        | none =>
          simp only [hgv] at h
          cases h
        | some nv =>
          simp only [hgv] at h
          obtain ⟨delta, ds, ns, ho, hd, hdu, hh, hn, hcall2⟩ :=
            ih s (om ++ [(v, nv)]) (om0 ++ [(v, nv)]) nm s1 om1 nm1 huidrest h
          have hA1 : v ∉ s1.get_declared_variables := by
            simp only [ConstraintSet.get_declared_variables] at hA ⊢
            rw [hd]
            simp only [List.map_append, List.mem_append]
            rintro (hin | hin)
            · exact hA hin
            · obtain ⟨p, hp, hpv⟩ := List.mem_map.mp hin
              have := hdu p hp
              rw [hpv] at this
              omega
          have halk1 : alookup v.name nm1 = some mn := by
            rw [hn]
            exact alookup_append_some _ halk
          have hgv1 : s1.get_variable mn = some nv := by
            show alookup mn s1.top.decls = some nv
            rw [hd]
            exact alookup_append_some _ hgv
          refine ⟨(v, nv) :: delta, ds, ns, by simpa using ho, hd, hdu, hh, hn, ?_⟩
          simp only [migrateVars, if_neg hA1, halk1, hgv1]
          simpa using hcall2
      | none =>
        simp only [halk] at h
        cases hmk : (if v.name ∈ s.declNames then s.make_unique_name (v.name ++ "_migrated")
                     else Except.ok (v.name, s)) with
        | error e =>
          simp only [hmk] at h
          cases h
        | ok p =>
          obtain ⟨mn, sA⟩ := p
          simp only [hmk] at h
          have hsA : mn ∉ s.declNames ∧ sA.top.cs = s.top.cs ∧ sA.top.decls = s.top.decls ∧
              sA.top.childActive = s.top.childActive ∧ sA.ancestors = s.ancestors ∧
              sA.heap = s.heap := by
            by_cases hvn : v.name ∈ s.declNames
            · rw [if_pos hvn] at hmk
              obtain ⟨hnot, hrec⟩ := make_unique_name_ok hmk
              refine ⟨hnot, ?_, ?_, ?_, ?_, ?_⟩ <;> rw [hrec]
            · rw [if_neg hvn] at hmk
              simp only [Except.ok.injEq, Prod.mk.injEq] at hmk
              obtain ⟨rfl, rfl⟩ := hmk
              exact ⟨hvn, rfl, rfl, rfl, rfl, rfl⟩
          obtain ⟨hmnot, hAcs, hAdecls, hAca, hAanc, hAheap⟩ := hsA
          cases hal : (match v.kind with
                       | VarKind.bool => sA.new_bool (some mn) false
                       | VarKind.bitvec size => sA.new_bitvec size (some mn) false
                       | VarKind.array ib im vb =>
                         sA.new_array ib (some mn) im vb false) with
          | error e =>
            simp only [hal] at h
            cases h
          | ok q =>
            obtain ⟨nv, sB⟩ := q
            simp only [hal] at h
            have hB : nv = ⟨mn, v.kind, sA.heap⟩ ∧
                sB.top.decls = sA.top.decls ++ [(mn, nv)] ∧ sB.heap = sA.heap + 1 := by
              cases hk : v.kind with
              | bool =>
                rw [hk] at hal
                obtain ⟨h1, _, _, _, h2, _, _, h3⟩ := new_bool_ok hal
                exact ⟨by rw [h1], h2, h3⟩
              | bitvec sz =>
                rw [hk] at hal
                obtain ⟨h1, _, _, _, h2, _, _, h3⟩ := new_bitvec_ok hal
                exact ⟨by rw [h1], h2, h3⟩
              | array ib im vb =>
                rw [hk] at hal
                obtain ⟨h1, _, _, _, h2, _, _, h3⟩ := new_array_ok hal
                exact ⟨by rw [h1], h2, h3⟩
            obtain ⟨hnv, hBdecls, hBheap⟩ := hB
            have hnvname : nv.name = mn := by rw [hnv]
            have hnvuid : nv.uid = s.heap := by rw [hnv]; simpa using hAheap
            have hBheap1 : sB.heap = s.heap + 1 := by rw [hBheap, hAheap]
            have huidrestB : ∀ v1 ∈ rest, v1.uid < sB.heap := by
              intro v1 hv1
              have := huidrest v1 hv1
              omega
            rw [hnvname] at h
            obtain ⟨delta, ds, ns, ho, hd, hdu, hh, hn, hcall2⟩ :=
              ih sB (om ++ [(v, nv)]) (om0 ++ [(v, nv)]) (nm ++ [(v.name, mn)])
                s1 om1 nm1 huidrestB h
            have hdall : s1.top.decls = s.top.decls ++ ((mn, nv) :: ds) := by
              rw [hd, hBdecls, hAdecls]
              simp
            have hA1 : v ∉ s1.get_declared_variables := by
              simp only [ConstraintSet.get_declared_variables]
              rw [hdall]
              simp only [List.map_append, List.mem_append]
              rintro (hin | hin)
              · exact hA hin
              · simp only [List.map_cons, List.mem_cons] at hin
                rcases hin with hin | hin
                · rw [hin] at hvuid
                  simp only [hnvuid] at hvuid
                  omega
                · obtain ⟨p, hp, hpv⟩ := List.mem_map.mp hin
                  have := hdu p hp
                  rw [hpv] at this
                  rw [hBheap1] at this
                  omega
            have halk1 : alookup v.name nm1 = some mn := by
              rw [hn, List.append_assoc, alookup_append_none _ halk]
              simp [alookup]
            have hgv1 : s1.get_variable mn = some nv := by
              show alookup mn s1.top.decls = some nv
              rw [hdall]
              rw [alookup_append_none _ ((alookup_eq_none mn s.top.decls).mpr hmnot)]
              simp [alookup]
            refine ⟨(v, nv) :: delta, (mn, nv) :: ds, (v.name, mn) :: ns,
              by simpa using ho, hdall, ?_, ?_, by simpa using hn, ?_⟩
            · intro p hp
              rcases List.mem_cons.mp hp with rfl | hp
              · simp only [hnvuid]
                omega
              · have := hdu p hp
                omega
            · omega
            · simp only [migrateVars, if_neg hA1, halk1, hgv1]
              simpa using hcall2

/-- C5: (idempotence) migrating the same foreign expression a second
time — into the store and with the name-migration map produced by the
first call — returns the same migrated expression, the same store and
the same map: each foreign variable is mapped to the same local
variable object both times and no fresh variable is allocated on the
second call.  (Failure) when a foreign variable's name is in the map
but the mapped name does not resolve to a variable declared in the
destination store, migrate fails.  The `uid < heap` hypothesis models
that the foreign expression's variable objects already exist on the
Python heap when migrate is called. -/
theorem migrate_contract :
    (∀ (s : ConstraintSet) (e : Expr) (nm : List (String × String))
       (e1 : Expr) (s1 : ConstraintSet) (nm1 : List (String × String)),
      (∀ v ∈ get_variables e, v.uid < s.heap) →
      s.migrate e nm = .ok (e1, s1, nm1) →
      s1.migrate e nm1 = .ok (e1, s1, nm1)) ∧
    (∀ (s : ConstraintSet) (v : Variable) (nm : List (String × String)) (tn : String),
      v ∉ s.get_declared_variables →
      alookup v.name nm = some tn →
      s.get_variable tn = none →
      s.migrate (Expr.evar v) nm =
        .error "name_migration_map contains an unknown variable") := by
  constructor
  · intro s e nm e1 s1 nm1 huid h
    unfold ConstraintSet.migrate at h ⊢
    cases hmv : migrateVars s [] nm (get_variables e) with
    | error e2 =>
      rw [hmv] at h
      cases h
    | ok t =>
      obtain ⟨s1', om, nm1'⟩ := t
      rw [hmv] at h
      simp only [Except.ok.injEq, Prod.mk.injEq] at h
      obtain ⟨he1, hs1, hnm1⟩ := h
      subst hs1
      subst hnm1
      obtain ⟨delta, ds, ns, ho, hd, hdu, hh, hn, hcall2⟩ :=
        migrateVars_idem (get_variables e) s [] [] nm s1' om nm1' huid hmv
      simp only [hcall2]
      rw [ho.symm, he1]
  · intro s v nm tn hdecl halk hgv
    unfold ConstraintSet.migrate
    have hvars : get_variables (Expr.evar v) = [v] := by
      simp [get_variables, Expr.varList]
    rw [hvars]
    simp only [migrateVars, if_neg hdecl, halk, hgv]

/-- Concrete material for C5's witness: a store whose heap counter is
ahead of the foreign variable's identity tag. -/
def migStore : ConstraintSet := ⟨⟨[], 0, [], false⟩, [], 10⟩
def foreignVar : Variable := ⟨"v", .bool, 3⟩
def migVar : Variable := ⟨"v", .bool, 10⟩
def migStore1 : ConstraintSet := ⟨⟨[], 0, [("v", migVar)], false⟩, [], 11⟩

/-- C5 witness: migrating a one-variable foreign expression, then
migrating it again with the map carried over, returns identical
results; and a map entry pointing at an undeclared name fails. -/
theorem migrate_contract_witness :
    ((get_variables (Expr.evar foreignVar)).all
      (fun v => decide (v.uid < migStore.heap))) = true ∧
    migStore.migrate (Expr.evar foreignVar) [] =
      .ok (Expr.evar migVar, migStore1, [("v", "v")]) ∧
    migStore1.migrate (Expr.evar foreignVar) [("v", "v")] =
      .ok (Expr.evar migVar, migStore1, [("v", "v")]) ∧
    migStore.migrate (Expr.evar foreignVar) [("v", "zz")] =
      .error "name_migration_map contains an unknown variable" := by
  refine ⟨by decide, by rfl, ?_, ?_⟩
  · exact migrate_contract.1 migStore (Expr.evar foreignVar) []
      (Expr.evar migVar) migStore1 [("v", "v")] (by decide) (by rfl)
  · exact migrate_contract.2 migStore foreignVar [("v", "zz")] "zz"
      (by decide) (by rfl) (by rfl)

end ManticoreSmtlib
